import Mathlib

/-!
Verification development for the tallclair/kubernetes fork.

Part A embeds the e2e wait helpers (`shouldRetry`, `ForObjectCondition`
polling loop, `ForObjectsCondition` bulk condition) and the matcher error
nesting (`Nest` / `NestedError`) from the Go source.

Part B models the synchronous-garbage-collection core (ObjectGraph,
EventIngestor, DirtyQueue, ItemProcessor, CycleBreaker).  That controller is
not present in the source tree — only its design proposal
(docs/proposals/synchronous-garbage-collection.md) is — so those definitions
are modelled from the specification text and are marked as such.
-/

/- ===================== Part A.1: e2e wait helpers ===================== -/

/-- Modelled from the spec: the k8s.io/apimachinery error predicates
(`SuggestsClientDelay`, `IsTimeout`, `IsTooManyRequests`, `IsNotFound`) used
by `shouldRetry` are not in the source tree; an API error is abstracted by
the answers those predicates give on it.  `suggestedDelaySeconds = some d`
means `SuggestsClientDelay` returns `(d, true)`. -/
structure APIError where
  suggestedDelaySeconds : Option Nat
  timeoutErr : Bool
  tooManyRequestsErr : Bool
  notFoundErr : Bool
deriving DecidableEq

/-- The `Opts` structure of the wait package (durations in nanoseconds as Go
`time.Duration`, modelled as `Nat`). -/
structure Opts where
  PollPeriod : Nat
  Timeout : Nat
  RetryNotFound : Bool
  DisableRetries : Bool
deriving DecidableEq

/-- Translation of `shouldRetry` from the wait helpers: decide whether to
retry an API request, optionally with a delay (in seconds here). -/
def shouldRetry (err : APIError) (opts : Opts) : Bool × Nat :=
  if opts.DisableRetries then (false, 0)
  else
    match err.suggestedDelaySeconds with
    | some delay => (true, delay)
    | none =>
      if err.timeoutErr || err.tooManyRequestsErr ||
          (err.notFoundErr && opts.RetryNotFound) then (true, 0)
      else (false, 0)

/-- One observed result of the `objectFetcher` call inside the polling loop. -/
inductive FetchResult (O : Type) where
  | fetchErr (e : APIError)
  | fetched (obj : O)

/-- How the polling loop of `ForObjectCondition` exits. -/
inductive PollOutcome where
  | success
  | failed (e : APIError)
  | timedOut
deriving DecidableEq

/-- Translation of the `wait.PollImmediate` body of `ForObjectCondition`,
driven by the finite sequence of fetch results observed before the deadline:
a fetch error is retried iff `shouldRetry` says so and otherwise exits the
loop with that error; a fetched object is handed to `condition`, whose error
exits the loop, whose `true` ends it successfully, and whose `false`
continues polling.  Exhausting the sequence is the deadline elapsing. -/
def pollLoop {O : Type} (opts : Opts) (condition : O → Bool × Option APIError) :
    List (FetchResult O) → PollOutcome
  | [] => .timedOut
  | .fetchErr e :: rest =>
    if (shouldRetry e opts).1 then pollLoop opts condition rest
    else .failed e
  | .fetched obj :: rest =>
    match condition obj with
    | (_, some condErr) => .failed condErr
    | (true, none) => .success
    | (false, none) => pollLoop opts condition rest

/-- The `ListOpts` structure of the wait helpers (Go `int` fields modelled
as `Int`). -/
structure ListOpts where
  opts : Opts
  MinObjects : Int
  MaxObjects : Option Int
  MinMatching : Int

/-- The counting loop inside `bulkCondition`: evaluate `condition` on each
object in order, aborting with the first error, otherwise counting the
objects that matched. -/
def countMatching {O : Type} (condition : O → Bool × Option APIError) :
    List O → Except APIError Nat
  | [] => .ok 0
  | o :: rest =>
    match condition o with
    | (_, some e) => .error e
    | (matched, none) =>
      match countMatching condition rest with
      | .error e => .error e
      | .ok m => .ok (if matched then m + 1 else m)

/-- Translation of the `bulkCondition` closure of `ForObjectsCondition`:
length gates first (`MinObjects`, `MinMatching`, then `MaxObjects` when
non-nil), then the counting loop, then the success computation
`matching == len(objs) || (MinMatching > 0 && matching >= MinMatching)`. -/
def bulkCondition {O : Type} (lopts : ListOpts) (condition : O → Bool × Option APIError)
    (objs : List O) : Bool × Option APIError :=
  if (objs.length : Int) < lopts.MinObjects || (objs.length : Int) < lopts.MinMatching then
    (false, none)
  else if (match lopts.MaxObjects with
           | some mx => decide ((objs.length : Int) > mx)
           | none => false) then
    (false, none)
  else
    match countMatching condition objs with
    | .error e => (false, some e)
    | .ok matching =>
      (decide (matching = objs.length) ||
        (decide (lopts.MinMatching > 0) && decide ((matching : Int) ≥ lopts.MinMatching)),
       none)

/- ===================== Part A.2: matcher error nesting ===================== -/

/-- A Go `error` value as used by the matchers package: `nil`, a plain error
(`base`), a `NestedError{Path, Err}`, or an `Aggregate` of member errors. -/
inductive GoErr where
  | nil
  | base (msg : String)
  | nested (path : String) (inner : GoErr)
  | aggregate (errs : List GoErr)

/-- Modelled from the spec: `errors.NewAggregate` of
k8s.io/kubernetes/pkg/util/errors is not in the source tree; per its
documented contract it returns nil for an empty list and an Aggregate
holding the list otherwise. -/
def NewAggregate (errlist : List GoErr) : GoErr :=
  if errlist.isEmpty then .nil else .aggregate errlist

mutual

/-- Translation of `Nest` from the matchers package: an Aggregate is nested
member-wise and re-aggregated, a `NestedError` gets the path prepended, and
any other error (including nil) is wrapped in a `NestedError` with the given
path. -/
def Nest (path : String) : GoErr → GoErr
  | .aggregate errs => NewAggregate (NestList path errs)
  | .nested q inner => .nested (path ++ q) inner
  | .base m => .nested path (.base m)
  | .nil => .nested path .nil

/-- Member-wise nesting of an aggregate's error list (the loop in `Nest`). -/
def NestList (path : String) : List GoErr → List GoErr
  | [] => []
  | e :: es => Nest path e :: NestList path es

end

/-- An error is a `NestedError`. -/
def GoErr.isNested : GoErr → Bool
  | .nested _ _ => true
  | _ => false

/-- An error is an `Aggregate`. -/
def GoErr.isAggregate : GoErr → Bool
  | .aggregate _ => true
  | _ => false

example : Nest "a" (.base "x") = .nested "a" (.base "x") := by simp [Nest]
example : Nest "a" (Nest "b" (.nested "c" (.base "x"))) = .nested "abc" (.base "x") := by
  simp [Nest]

/- ===================== Part B: synchronous-GC core model ===================== -/

/-- Object identities (compound keys in the design) are abstracted as
natural numbers; the GC core only ever compares them for equality. -/
abbrev ObjectID := Nat

/-- Modelled from the spec: one entry of a node's `owners` list —
`blocking` corresponds to `BlockSynchronousGC`. -/
structure OwnerRef where
  owner : ObjectID
  blocking : Bool
deriving DecidableEq

/-- Modelled from the spec: a `GraphNode` of the ObjectGraph.  The
`dependents` back-references are derived (always the inverse of other
nodes' `owners` entries), so they are computed rather than stored.
`hasOrphanFinalizer` records the orphan finalizer consulted by the
owner-absence check. -/
structure GraphNode where
  owners : List OwnerRef
  deletionRequested : Bool
  gcInProgress : Bool
  hasOrphanFinalizer : Bool
  virtual : Bool
  generation : Nat
  observedGeneration : Nat
deriving DecidableEq

/-- Modelled from the spec: the in-memory ObjectGraph, an identity-keyed
association list of nodes. -/
structure ObjectGraph where
  nodes : List (ObjectID × GraphNode)
deriving DecidableEq

/-- Node lookup by identity (first entry wins). -/
def ObjectGraph.lookup (g : ObjectGraph) (id : ObjectID) : Option GraphNode :=
  (g.nodes.find? (fun p => p.1 = id)).map Prod.snd

/-- Whether an identity is tracked in the graph. -/
def ObjectGraph.containsID (g : ObjectGraph) (id : ObjectID) : Bool :=
  g.nodes.any (fun p => p.1 = id)

/-- Update every entry of the given identity in place (no-op when the
identity is untracked). -/
def ObjectGraph.mapNode (g : ObjectGraph) (id : ObjectID) (f : GraphNode → GraphNode) :
    ObjectGraph :=
  ⟨g.nodes.map (fun p => if p.1 = id then (p.1, f p.2) else p)⟩

/-- Modelled from the spec: a virtual node — it exists in the graph only as
an owner-reference target whose existence is inferred, with no observed
state of its own. -/
def GraphNode.virtualNode : GraphNode :=
  { owners := [], deletionRequested := false, gcInProgress := false,
    hasOrphanFinalizer := false, virtual := true, generation := 0, observedGeneration := 0 }

/-- Create a virtual node for an owner target not yet observed (no-op when
the target is already tracked). -/
def ObjectGraph.ensureVirtual (g : ObjectGraph) (oid : ObjectID) : ObjectGraph :=
  if g.containsID oid then g else ⟨g.nodes ++ [(oid, GraphNode.virtualNode)]⟩

/-- The field update `upsert` applies to an already-tracked node: owners,
generations and the orphan finalizer come from the snapshot, the GC state is
kept, and the node is no longer virtual. -/
def upsertTouch (owners : List OwnerRef) (gen obsGen : Nat) (orphanFin : Bool)
    (n : GraphNode) : GraphNode :=
  { n with owners := owners, generation := gen, observedGeneration := obsGen,
           hasOrphanFinalizer := orphanFin, virtual := false }

/-- The fresh node `upsert` creates for a first real observation. -/
def upsertNewNode (owners : List OwnerRef) (gen obsGen : Nat) (orphanFin : Bool) : GraphNode :=
  { owners := owners, deletionRequested := false, gcInProgress := false,
    hasOrphanFinalizer := orphanFin, virtual := false,
    generation := gen, observedGeneration := obsGen }

/-- Modelled from the spec: `upsert` creates or updates a node and creates
virtual nodes for owners not yet observed.  Beyond the `(identity, owners,
generation)` signature of §4.1, the observed generation and the orphan
finalizer are taken from the same object snapshot (§6) since later checks
read them from the node. -/
def ObjectGraph.upsert (g : ObjectGraph) (id : ObjectID) (owners : List OwnerRef)
    (gen obsGen : Nat) (orphanFin : Bool) : ObjectGraph :=
  let g1 :=
    if g.containsID id then
      g.mapNode id (upsertTouch owners gen obsGen orphanFin)
    else
      ⟨g.nodes ++ [(id, upsertNewNode owners gen obsGen orphanFin)]⟩
  owners.foldl (fun acc ref => acc.ensureVirtual ref.owner) g1

/-- Modelled from the spec: idempotent state transition recording a deletion
timestamp on the object. -/
def ObjectGraph.markDeletionRequested (g : ObjectGraph) (id : ObjectID) : ObjectGraph :=
  g.mapNode id (fun n => { n with deletionRequested := true })

/-- Modelled from the spec: idempotent state transition for the
collecting-garbage finalizer.  Since `gcInProgress` means the object carries
the finalizer AND has a deletion timestamp (§3), marking it in progress also
records the deletion request, keeping the §3 invariant. -/
def ObjectGraph.markGCInProgress (g : ObjectGraph) (id : ObjectID) (inProgress : Bool) :
    ObjectGraph :=
  g.mapNode id (fun n =>
    if inProgress then { n with gcInProgress := true, deletionRequested := true }
    else { n with gcInProgress := false })

/-- Identities of the nodes listing `id` among their owners (the derived
`dependents` back-references). -/
def ObjectGraph.dependentsOf (g : ObjectGraph) (id : ObjectID) : List ObjectID :=
  (g.nodes.filter (fun p => p.2.owners.any (fun r => r.owner = id))).map Prod.fst

/-- Modelled from the spec: `remove` deletes a node only if it has zero
dependents; otherwise it fails with `HasDependentsError` and the operation
is aborted (the graph is unchanged). -/
def ObjectGraph.remove (g : ObjectGraph) (id : ObjectID) : ObjectGraph :=
  if (g.dependentsOf id).isEmpty then ⟨g.nodes.filter (fun p => ¬ p.1 = id)⟩ else g

/-- Owners of an identity; empty for unknown identities (never an error). -/
def ObjectGraph.ownersOf (g : ObjectGraph) (id : ObjectID) : List OwnerRef :=
  match g.lookup id with
  | some n => n.owners
  | none => []

/-- Whether the identity is tracked and marked `gcInProgress`. -/
def ObjectGraph.gcInProgressOf (g : ObjectGraph) (id : ObjectID) : Bool :=
  match g.lookup id with
  | some n => n.gcInProgress
  | none => false

/-- Identities of the live dependents of `id` whose owner entry for `id` has
`blocking = true`. -/
def ObjectGraph.blockingDependentsOf (g : ObjectGraph) (id : ObjectID) : List ObjectID :=
  (g.nodes.filter (fun p => p.2.owners.any (fun r => r.owner = id && r.blocking))).map Prod.fst

/-- Modelled from the spec: true iff some live dependent of `id` has
`owners[id].blocking = true`. -/
def ObjectGraph.isBlockingDependentPresent (g : ObjectGraph) (id : ObjectID) : Bool :=
  g.nodes.any (fun p => p.2.owners.any (fun r => r.owner = id && r.blocking))

/-- Event kinds of the watch stream. -/
inductive EventType where
  | added
  | modified
  | deleted
deriving DecidableEq

/-- Modelled from the spec: the object snapshot carried by a watch event —
identity, owner references, finalizer list (reduced to the two finalizers
the core reads), deletion timestamp presence, and generations. -/
structure ObjectSnapshot where
  identity : ObjectID
  ownerRefs : List OwnerRef
  hasGCFinalizer : Bool
  hasOrphanFinalizer : Bool
  hasDeletionTimestamp : Bool
  generation : Nat
  observedGeneration : Nat
deriving DecidableEq

/-- A watch event. -/
structure Event where
  type : EventType
  snapshot : ObjectSnapshot
deriving DecidableEq

/-- Modelled from the spec: `processEvent` of the EventIngestor (§4.2).
Returns the updated graph and the identities to enqueue into the DirtyQueue:
on Added/Modified with the collecting-garbage finalizer and a deletion
timestamp, mark GC in progress and enqueue the identity; otherwise upsert,
enqueuing the identity when the owner topology changed; on Deleted, remove
the node and enqueue each owner that is marked GC in progress. -/
def processEvent (g : ObjectGraph) (e : Event) : ObjectGraph × List ObjectID :=
  let s := e.snapshot
  let id := s.identity
  match e.type with
  | .deleted =>
    let ownerEnqueues :=
      match g.lookup id with
      | some n => (n.owners.filter (fun r => g.gcInProgressOf r.owner)).map OwnerRef.owner
      | none => []
    (g.remove id, ownerEnqueues)
  | _ =>
    if s.hasGCFinalizer && s.hasDeletionTimestamp then
      (g.markGCInProgress id true, [id])
    else
      let gNext := g.upsert id s.ownerRefs s.generation s.observedGeneration s.hasOrphanFinalizer
      (gNext, if g.ownersOf id = s.ownerRefs then [] else [id])

/-- Modelled from the spec: the DirtyQueue (§4.3) with the standard
work-queue bookkeeping — `queue` is the hand-out order, `dirty` the set of
identities awaiting (re)processing, `processing` the set currently held by
workers. -/
structure DirtyQueue where
  queue : List ObjectID
  dirty : List ObjectID
  processing : List ObjectID
  isShutDown : Bool
deriving DecidableEq

/-- Modelled from the spec: enqueue — a no-op after shutdown and for an
identity already marked dirty; an identity being processed is recorded dirty
but only re-queued once its in-flight processing completes. -/
def DirtyQueue.enqueue (q : DirtyQueue) (id : ObjectID) : DirtyQueue :=
  if q.isShutDown then q
  else if id ∈ q.dirty then q
  else
    { q with dirty := q.dirty ++ [id],
             queue := if id ∈ q.processing then q.queue else q.queue ++ [id] }

/-- Enqueue a batch of identities in order. -/
def DirtyQueue.enqueueAll (q : DirtyQueue) (ids : List ObjectID) : DirtyQueue :=
  ids.foldl DirtyQueue.enqueue q

/-- One ingestion step: apply `processEvent` to the graph and push the
resulting identities through the deduplicating queue. -/
def ingest (s : ObjectGraph × DirtyQueue) (e : Event) : ObjectGraph × DirtyQueue :=
  let r := processEvent s.1 e
  (r.1, s.2.enqueueAll r.2)

/-- Store requests the ItemProcessor can issue. -/
inductive StoreRequest where
  | delete (id : ObjectID) (syncGC : Bool)
  | patchRemoveFinalizer (id : ObjectID)
  | patchRemoveOwnerRefs (id : ObjectID) (owners : List ObjectID)
deriving DecidableEq

/-- Result of processing one dequeued identity: the store requests issued,
the identities enqueued into the DirtyQueue, and whether the identity is
re-enqueued with backoff. -/
structure ProcessResult where
  requests : List StoreRequest
  enqueues : List ObjectID
  requeue : Bool
deriving DecidableEq

/-- Modelled from the spec: the owner-absence test of the ordinary GC path
(§4.4 step 3) — an owner counts as absent if it does not exist in the graph,
or it has a deletion timestamp and no orphan finalizer. -/
def ownerAbsent (g : ObjectGraph) (o : ObjectID) : Bool :=
  match g.lookup o with
  | none => true
  | some n => n.deletionRequested && !n.hasOrphanFinalizer

/-- Modelled from the spec: the `SynchronousGarbageCollection` option a
delete for this node must carry, as indicated by its owners' finalizer
state (propagating cascading intent). -/
def ownersIndicateSyncGC (g : ObjectGraph) (n : GraphNode) : Bool :=
  n.owners.any (fun r => g.gcInProgressOf r.owner)

/-- Modelled from the spec: the CycleBreaker condition (§4.5) — the node and
every one of its owners are simultaneously `gcInProgress`. -/
def cycleBreakerFires (g : ObjectGraph) (id : ObjectID) : Bool :=
  match g.lookup id with
  | some n => n.gcInProgress && n.owners.all (fun r => g.gcInProgressOf r.owner)
  | none => false

/-- Modelled from the spec: the CycleBreaker check — when its condition
holds it forcibly removes the collecting-garbage finalizer from the node
(one patch request); otherwise it takes no action and touches nothing. -/
def cycleBreaker (g : ObjectGraph) (id : ObjectID) : List StoreRequest :=
  if cycleBreakerFires g id then [.patchRemoveFinalizer id] else []

/-- Modelled from the spec: `processItem` of the ItemProcessor (§4.4).
An untracked identity is dropped; a node whose observed generation lags its
generation is re-enqueued with backoff; a `gcInProgress` node runs the
CycleBreaker check first, then either patches the finalizer off (no blocking
dependent present) or enqueues its blocking dependents; an ordinary node is
deleted when every owner is absent (with the propagated synchronous-GC
option), and otherwise, when the remaining present owners are all
`gcInProgress`, the owner references pointing at them are patched away. -/
def processItem (g : ObjectGraph) (id : ObjectID) : ProcessResult :=
  match g.lookup id with
  | none => ⟨[], [], false⟩
  | some n =>
    if n.observedGeneration < n.generation then ⟨[], [], true⟩
    else if n.gcInProgress then
      if cycleBreakerFires g id then ⟨cycleBreaker g id, [], false⟩
      else if g.isBlockingDependentPresent id then ⟨[], g.blockingDependentsOf id, false⟩
      else ⟨[.patchRemoveFinalizer id], [], false⟩
    else
      if n.owners.all (fun r => ownerAbsent g r.owner) then
        ⟨[.delete id (ownersIndicateSyncGC g n)], [], false⟩
      else
        let present := n.owners.filter (fun r => !ownerAbsent g r.owner)
        if (n.owners.any (fun r => ownerAbsent g r.owner)) &&
            present.all (fun r => g.gcInProgressOf r.owner) then
          ⟨[.patchRemoveOwnerRefs id (present.map OwnerRef.owner)], [], false⟩
        else ⟨[], [], false⟩

/-- Errors of the GC core surface. -/
inductive GCError where
  | invalidOptionsError
  | hasDependentsError
  | conflictError
  | queueClosedError
deriving DecidableEq

/-- The options of the delete-request entry point. -/
structure DeleteOptions where
  SynchronousGarbageCollection : Bool
  OrphanDependents : Bool
deriving DecidableEq

/-- Modelled from the spec: the delete-request entry point (§6) — it rejects
with `InvalidOptionsError` when both option booleans are true, before any
state is touched; an accepted request records the deletion (and, for a
synchronous-GC delete, the collecting-garbage finalizer) on the object,
which the graph observes. -/
def deleteRequest (g : ObjectGraph) (id : ObjectID) (opts : DeleteOptions) :
    Option GCError × ObjectGraph :=
  if opts.SynchronousGarbageCollection && opts.OrphanDependents then
    (some .invalidOptionsError, g)
  else if opts.SynchronousGarbageCollection then
    (none, g.markGCInProgress id true)
  else
    (none, g.markDeletionRequested id)

/-- Modelled from the spec: the retry taxonomy (§7) — transient store errors
are retried, permanent validation errors and graph-consistency errors are
not, and operations past queue shutdown fail outright. -/
def gcErrorRetryable : GCError → Bool
  | .conflictError => true
  | .invalidOptionsError => false
  | .hasDependentsError => false
  | .queueClosedError => false

/-- The §3 invariant: every tracked node that is `gcInProgress` has
`deletionRequested`. -/
def Invariant (g : ObjectGraph) : Prop :=
  ∀ p ∈ g.nodes, p.2.gcInProgress = true → p.2.deletionRequested = true

instance (g : ObjectGraph) : Decidable (Invariant g) := by
  unfold Invariant
  infer_instance

/- ===================== Lemmas about the wait helpers ===================== -/

theorem countMatching_ok_of_noErr {O : Type} (condition : O → Bool × Option APIError)
    (objs : List O) (h : ∀ o ∈ objs, (condition o).2 = none) :
    countMatching condition objs = .ok ((objs.filter (fun o => (condition o).1)).length) := by
  induction objs with
  | nil => rfl
  | cons o rest ih =>
    have ho : (condition o).2 = none := h o (by simp)
    have hrest : ∀ a ∈ rest, (condition a).2 = none := fun a ha => h a (by simp [ha])
    have hr := ih hrest
    rcases hco : condition o with ⟨b, eo⟩
    have heo : eo = none := by rw [hco] at ho; exact ho
    subst heo
    simp only [countMatching, hco, hr, List.filter_cons]
    cases b <;> simp [Nat.add_comm]

theorem countMatching_noErr_of_ok {O : Type} (condition : O → Bool × Option APIError)
    (objs : List O) (m : Nat) (h : countMatching condition objs = .ok m) :
    ∀ o ∈ objs, (condition o).2 = none := by
  induction objs generalizing m with
  | nil => intro o ho; cases ho
  | cons o rest ih =>
    intro a ha
    rcases hco : condition o with ⟨b, eo⟩
    cases eo with
    | some e =>
      simp only [countMatching, hco] at h
      exact absurd h (by simp)
    | none =>
      simp only [countMatching, hco] at h
      rcases hcm : countMatching condition rest with e2 | m2
      · rw [hcm] at h; simp at h
      · rcases List.mem_cons.mp ha with rfl | hmem
        · rw [hco]
        · exact ih m2 hcm a hmem

theorem countMatching_error_at {O : Type} (condition : O → Bool × Option APIError)
    (pre post : List O) (o : O) (e : APIError)
    (hpre : ∀ a ∈ pre, (condition a).2 = none) (ho : (condition o).2 = some e) :
    countMatching condition (pre ++ o :: post) = .error e := by
  induction pre with
  | nil =>
    rcases hco : condition o with ⟨b, eo⟩
    rw [hco] at ho
    cases eo with
    | none => simp at ho
    | some e2 =>
      have he2 : e2 = e := by simpa using ho
      subst he2
      simp only [List.nil_append, countMatching, hco]
  | cons a pre ih =>
    have hane : (condition a).2 = none := hpre a (by simp)
    have hpre2 : ∀ x ∈ pre, (condition x).2 = none := fun x hx => hpre x (by simp [hx])
    rcases hca : condition a with ⟨b, ea⟩
    have hea : ea = none := by rw [hca] at hane; exact hane
    subst hea
    simp only [List.cons_append, countMatching, hca, List.append_eq, ih hpre2]


/- ===================== Claim C8 ===================== -/

/-- C8: with `DisableRetries = true`, `shouldRetry` answers `(false, 0)` for
every error, so the polling loop of `ForObjectCondition` exits and reports
the error on the very first fetch error, whatever its kind. -/
theorem disableRetriesExitsImmediately (opts : Opts) (h : opts.DisableRetries = true) :
    (∀ err : APIError, shouldRetry err opts = (false, 0)) ∧
    (∀ (O : Type) (condition : O → Bool × Option APIError) (e : APIError)
        (rest : List (FetchResult O)),
      pollLoop opts condition (.fetchErr e :: rest) = .failed e) := by
  have hsr : ∀ err : APIError, shouldRetry err opts = (false, 0) := by
    intro err
    simp [shouldRetry, h]
  refine ⟨hsr, ?_⟩
  intro O condition e rest
  simp [pollLoop, hsr e]

/-- Witness for C8 at an error that simultaneously carries a Retry-After
suggestion and the Timeout, TooManyRequests and NotFound kinds, with
`RetryNotFound` set: the retries are still disabled. -/
theorem disableRetriesExitsImmediately_witness :
    (Opts.mk 1 1 true true).DisableRetries = true ∧
    shouldRetry (APIError.mk (some 3) true true true) (Opts.mk 1 1 true true) = (false, 0) ∧
    pollLoop (O := Unit) (Opts.mk 1 1 true true) (fun _ => (true, none))
      [.fetchErr (APIError.mk (some 3) true true true)] =
      .failed (APIError.mk (some 3) true true true) := by
  have h := disableRetriesExitsImmediately (Opts.mk 1 1 true true) rfl
  exact ⟨rfl, h.1 (APIError.mk (some 3) true true true),
    h.2 Unit (fun _ => (true, none)) (APIError.mk (some 3) true true true) []⟩

/- ===================== Claim C9 ===================== -/

/-- A concrete per-object-condition error used to refute claim C9 as
stated. -/
def errC9 : APIError := ⟨none, false, false, false⟩

/-- A concrete per-object condition: object `0` matches cleanly, every other
object reports an error. -/
def condC9 : Nat → Bool × Option APIError :=
  fun o => if o = 0 then (true, none) else (false, some errC9)

/-- Concrete list options for the C9 counterexample: `MinObjects = 0`, no
maximum, `MinMatching = 1`. -/
def loptsC9 : ListOpts := ⟨⟨0, 0, false, false⟩, 0, none, 1⟩

/-- Counterexample to C9 as stated: on `objs = [0, 1]` all the length bounds
hold, `MinMatching = 1 > 0` and at least one element satisfies the
condition, so the claimed iff says the aggregate condition succeeds — but
element `1` makes the per-object condition return an error, and the code
fails with that error instead of succeeding. -/
theorem bulkConditionClaim_counterexample :
    bulkCondition loptsC9 condC9 [0, 1] = (false, some errC9) ∧
    bulkCondition loptsC9 condC9 [0, 1] ≠ (true, none) ∧
    loptsC9.MinObjects ≤ (([0, 1] : List Nat).length : Int) ∧
    loptsC9.MinMatching ≤ (([0, 1] : List Nat).length : Int) ∧
    loptsC9.MaxObjects = none ∧
    loptsC9.MinMatching > 0 ∧
    loptsC9.MinMatching ≤ ((([0, 1] : List Nat).filter (fun o => (condC9 o).1)).length : Int) := by
  refine ⟨by decide, by decide, by decide, by decide, rfl, by decide, by decide⟩

/-- C9 (amended): the aggregate condition of `ForObjectsCondition` succeeds
iff the length bounds hold, no element's condition errors, and either every
element matches or `MinMatching > 0` and at least `MinMatching` elements
match; and when the length bounds hold and some element's condition errors,
the aggregate fails with the first such error. -/
theorem bulkConditionCharacterization {O : Type} (lopts : ListOpts)
    (condition : O → Bool × Option APIError) (objs : List O) :
    (bulkCondition lopts condition objs = (true, none) ↔
      (lopts.MinObjects ≤ (objs.length : Int) ∧ lopts.MinMatching ≤ (objs.length : Int) ∧
       (∀ mx, lopts.MaxObjects = some mx → (objs.length : Int) ≤ mx) ∧
       (∀ o ∈ objs, (condition o).2 = none) ∧
       ((objs.filter (fun o => (condition o).1)).length = objs.length ∨
        (lopts.MinMatching > 0 ∧
         lopts.MinMatching ≤ ((objs.filter (fun o => (condition o).1)).length : Int)))))
    ∧ (∀ (pre post : List O) (o : O) (e : APIError),
        objs = pre ++ o :: post →
        (∀ a ∈ pre, (condition a).2 = none) →
        (condition o).2 = some e →
        lopts.MinObjects ≤ (objs.length : Int) →
        lopts.MinMatching ≤ (objs.length : Int) →
        (∀ mx, lopts.MaxObjects = some mx → (objs.length : Int) ≤ mx) →
        bulkCondition lopts condition objs = (false, some e)) := by
  constructor
  · constructor
    · intro hs
      by_cases hgate1 : (objs.length : Int) < lopts.MinObjects ∨ (objs.length : Int) < lopts.MinMatching
      · have : bulkCondition lopts condition objs = (false, none) := by
          simp only [bulkCondition]
          rw [if_pos (by simpa using hgate1)]
        rw [this] at hs
        simp at hs
      · push_neg at hgate1
        have hgb : ((objs.length : Int) < lopts.MinObjects || (objs.length : Int) < lopts.MinMatching) = false := by
          simp [hgate1.1.not_lt, hgate1.2.not_lt]
        by_cases hgate2 : (match lopts.MaxObjects with
            | some mx => decide ((objs.length : Int) > mx)
            | none => false) = true
        · have : bulkCondition lopts condition objs = (false, none) := by
            simp only [bulkCondition]
            rw [if_neg (by simp [hgb]), if_pos hgate2]
          rw [this] at hs
          simp at hs
        · have hbc : bulkCondition lopts condition objs =
              (match countMatching condition objs with
               | .error e => (false, some e)
               | .ok matching =>
                 (decide (matching = objs.length) ||
                   (decide (lopts.MinMatching > 0) && decide ((matching : Int) ≥ lopts.MinMatching)),
                  none)) := by
            simp only [bulkCondition]
            rw [if_neg (by simp [hgb]), if_neg hgate2]
          rw [hbc] at hs
          rcases hcm : countMatching condition objs with e | m
          · rw [hcm] at hs; simp at hs
          · rw [hcm] at hs
            have hnone := countMatching_noErr_of_ok condition objs m hcm
            have hm : m = (objs.filter (fun o => (condition o).1)).length := by
              have := countMatching_ok_of_noErr condition objs hnone
              rw [hcm] at this
              exact (Except.ok.injEq _ _).mp this
            refine ⟨hgate1.1, hgate1.2, ?_, hnone, ?_⟩
            · intro mx hmx
              rw [hmx] at hgate2
              simpa using le_of_not_lt (by simpa using hgate2)
            · have hb : (decide (m = objs.length) ||
                  (decide (lopts.MinMatching > 0) && decide ((m : Int) ≥ lopts.MinMatching))) = true := by
                have := congrArg Prod.fst hs
                simpa using this
              rw [hm] at hb
              rcases Bool.or_eq_true_iff.mp hb with h1 | h2
              · exact Or.inl (by simpa using h1)
              · rcases Bool.and_eq_true_iff.mp h2 with ⟨h2a, h2b⟩
                exact Or.inr ⟨by simpa using h2a, by simpa using h2b⟩
    · rintro ⟨h1, h2, h3, h4, h5⟩
      have hgb : ((objs.length : Int) < lopts.MinObjects || (objs.length : Int) < lopts.MinMatching) = false := by
        simp [h1.not_lt, h2.not_lt]
      have hgate2 : (match lopts.MaxObjects with
          | some mx => decide ((objs.length : Int) > mx)
          | none => false) = false := by
        rcases hmax : lopts.MaxObjects with _ | mx
        · rfl
        · simpa using (h3 mx hmax).not_lt
      have hcm := countMatching_ok_of_noErr condition objs h4
      simp only [bulkCondition]
      rw [if_neg (by simp [hgb]), if_neg (by simp [hgate2]), hcm]
      rcases h5 with h5 | ⟨h5a, h5b⟩
      · simp [h5]
      · simp [h5a, h5b]
  · intro pre post o e heq hpre ho hg1 hg2 hg3
    have hcm : countMatching condition objs = .error e := by
      rw [heq]
      exact countMatching_error_at condition pre post o e hpre ho
    have hgb : ((objs.length : Int) < lopts.MinObjects || (objs.length : Int) < lopts.MinMatching) = false := by
      simp [hg1.not_lt, hg2.not_lt]
    have hgate2 : (match lopts.MaxObjects with
        | some mx => decide ((objs.length : Int) > mx)
        | none => false) = false := by
      rcases hmax : lopts.MaxObjects with _ | mx
      · rfl
      · simpa using (hg3 mx hmax).not_lt
    simp only [bulkCondition]
    rw [if_neg (by simp [hgb]), if_neg (by simp [hgate2]), hcm]

/-- Witness for C9 (amended): a two-element list where both parts of the
characterization are exercised — success on an error-free list meeting
`MinMatching`, and failure with the first error when an element errors. -/
theorem bulkConditionCharacterization_witness :
    (bulkCondition loptsC9 (fun o : Nat => (o = 0, none)) [0, 1] = (true, none) ↔
      (loptsC9.MinObjects ≤ ((2 : Nat) : Int) ∧ loptsC9.MinMatching ≤ ((2 : Nat) : Int) ∧
       (∀ mx, loptsC9.MaxObjects = some mx → ((2 : Nat) : Int) ≤ mx) ∧
       (∀ o ∈ [0, 1], ((fun o : Nat => (decide (o = 0), (none : Option APIError))) o).2 = none) ∧
       ((([0, 1] : List Nat).filter (fun o => o = 0)).length = 2 ∨
        (loptsC9.MinMatching > 0 ∧
         loptsC9.MinMatching ≤ ((([0, 1] : List Nat).filter (fun o => o = 0)).length : Int)))))
    ∧ bulkCondition loptsC9 condC9 [0, 1] = (false, some errC9) := by
  constructor
  · have h := (bulkConditionCharacterization loptsC9 (fun o : Nat => (o = 0, none)) [0, 1]).1
    simpa using h
  · have h := (bulkConditionCharacterization loptsC9 condC9 [0, 1]).2
    exact h [0] [] 1 errC9 rfl (by decide) (by decide) (by decide) (by decide)
      (fun mx hmx => by simp [loptsC9] at hmx)

/- ===================== Claim C10 ===================== -/

theorem nestList_eq_map (p : String) (es : List GoErr) :
    NestList p es = es.map (Nest p) := by
  induction es with
  | nil => rfl
  | cons e es ih => simp [NestList, ih]

/-- Counterexample to C10 as stated: the final composition clause quantifies
over every non-aggregate `e`, but for `e` itself a `NestedError` (path "c")
the composed nesting carries path `"abc"`, not `p ++ q = "ab"`. -/
theorem nestClaim_counterexample :
    Nest "a" (Nest "b" (GoErr.nested "c" (GoErr.base "x")))
      = GoErr.nested "abc" (GoErr.base "x")
    ∧ ("abc" : String) ≠ "ab" := by
  exact ⟨by simp [Nest], by decide⟩

/-- C10 (amended): `Nest` maps an Aggregate member-wise (re-aggregating a
non-empty member list), prepends the path of a `NestedError` keeping its
inner error, and wraps any other error in a `NestedError` with the given
path — hence for every `e` that is neither an Aggregate nor a `NestedError`,
`Nest p (Nest q e)` carries path `p ++ q`. -/
theorem nestCharacterization (p : String) :
    (∀ errs : List GoErr, errs ≠ [] →
      Nest p (.aggregate errs) = .aggregate (errs.map (Nest p)))
    ∧ (∀ (q : String) (inner : GoErr), Nest p (.nested q inner) = .nested (p ++ q) inner)
    ∧ (∀ e : GoErr, e.isNested = false → e.isAggregate = false →
        Nest p e = .nested p e)
    ∧ (∀ (q : String) (e : GoErr), e.isNested = false → e.isAggregate = false →
        Nest p (Nest q e) = .nested (p ++ q) e) := by
  have hwrap : ∀ r : String, ∀ e : GoErr, e.isNested = false → e.isAggregate = false →
      Nest r e = .nested r e := by
    intro r e hn ha
    cases e with
    | nil => simp [Nest]
    | base m => simp [Nest]
    | nested q inner => simp [GoErr.isNested] at hn
    | aggregate es => simp [GoErr.isAggregate] at ha
  refine ⟨?_, ?_, hwrap p, ?_⟩
  · intro errs hne
    have hmapne : errs.map (Nest p) ≠ [] := by
      simpa using hne
    simp [Nest, nestList_eq_map, NewAggregate, List.isEmpty_iff, hmapne]
  · intro q inner
    simp [Nest]
  · intro q e hn ha
    rw [hwrap q e hn ha]
    simp [Nest]

/-- Witness for C10 (amended) at a two-member aggregate and a plain error. -/
theorem nestCharacterization_witness :
    Nest "p" (GoErr.aggregate [GoErr.base "u", GoErr.nil])
      = GoErr.aggregate [Nest "p" (GoErr.base "u"), Nest "p" GoErr.nil]
    ∧ Nest "p" (GoErr.nested "q" (GoErr.base "u")) = GoErr.nested "pq" (GoErr.base "u")
    ∧ Nest "p" (GoErr.base "u") = GoErr.nested "p" (GoErr.base "u")
    ∧ Nest "p" (Nest "q" (GoErr.base "u")) = GoErr.nested "pq" (GoErr.base "u") := by
  have h := nestCharacterization "p"
  refine ⟨?_, ?_, h.2.2.1 (GoErr.base "u") rfl rfl, ?_⟩
  · have := h.1 [GoErr.base "u", GoErr.nil] (by simp)
    simpa using this
  · have := h.2.1 "q" (GoErr.base "u")
    simpa using this
  · have := h.2.2.2 "q" (GoErr.base "u") rfl rfl
    simpa using this

/- ===================== Claim C1 ===================== -/

/-- An owning node for the concrete witnesses: gcInProgress with a deletion
timestamp, no owners of its own. -/
def nodeOwnerGC : GraphNode :=
  { owners := [], deletionRequested := true, gcInProgress := true,
    hasOrphanFinalizer := false, virtual := false, generation := 0,
    observedGeneration := 0 }

/-- A blocking dependent of identity 1 for the concrete witnesses. -/
def nodeBlockingDep : GraphNode :=
  { owners := [⟨1, true⟩], deletionRequested := false, gcInProgress := false,
    hasOrphanFinalizer := false, virtual := false, generation := 0,
    observedGeneration := 0 }

/-- A concrete graph: node 1 is gcInProgress; node 2 depends on node 1 with
`blocking = true`. -/
def gC1 : ObjectGraph := ⟨[(1, nodeOwnerGC), (2, nodeBlockingDep)]⟩

/-- C1: non-premature deletion.  Proved for every graph state (a superset of
the reachable states) and every dequeued identity: while `id` is
`gcInProgress` and still has a live blocking dependent, no `processItem`
step issues a store delete for `id` itself.  (In fact the `gcInProgress`
path never issues a delete at all, and other items only ever delete
themselves.) -/
theorem nonPrematureDeletion (g : ObjectGraph) (idv j : ObjectID) (n : GraphNode)
    (opt : Bool) (h1 : g.lookup idv = some n) (h2 : n.gcInProgress = true)
    (h3 : g.isBlockingDependentPresent idv = true) :
    StoreRequest.delete idv opt ∉ (processItem g j).requests := by
  intro hmem
  rcases hj : g.lookup j with _ | m
  · simp [processItem, hj] at hmem
  · simp only [processItem, hj] at hmem
    by_cases hgen : m.observedGeneration < m.generation
    · rw [if_pos hgen] at hmem
      simp at hmem
    · rw [if_neg hgen] at hmem
      by_cases hgc : m.gcInProgress
      · rw [if_pos hgc] at hmem
        by_cases hcy : cycleBreakerFires g j
        · rw [if_pos hcy] at hmem
          simp [cycleBreaker, hcy] at hmem
        · rw [if_neg hcy] at hmem
          by_cases hbl : g.isBlockingDependentPresent j
          · rw [if_pos hbl] at hmem
            simp at hmem
          · rw [if_neg hbl] at hmem
            simp at hmem
      · rw [if_neg hgc] at hmem
        by_cases hall : m.owners.all (fun r => ownerAbsent g r.owner)
        · rw [if_pos hall] at hmem
          simp only [List.mem_singleton, StoreRequest.delete.injEq] at hmem
          rcases hmem with ⟨hid, _⟩
          subst hid
          rw [h1] at hj
          cases hj
          rw [h2] at hgc
          exact hgc rfl
        · rw [if_neg hall] at hmem
          by_cases hsome : (m.owners.any (fun r => ownerAbsent g r.owner)) &&
              (m.owners.filter (fun r => !ownerAbsent g r.owner)).all
                (fun r => g.gcInProgressOf r.owner)
          · rw [if_pos hsome] at hmem
            simp at hmem
          · rw [if_neg hsome] at hmem
            simp at hmem

/-- Witness for C1: processing identity 1 itself on `gC1` issues no delete
for it. -/
theorem nonPrematureDeletion_witness :
    gC1.lookup 1 = some nodeOwnerGC
    ∧ nodeOwnerGC.gcInProgress = true
    ∧ gC1.isBlockingDependentPresent 1 = true
    ∧ StoreRequest.delete 1 true ∉ (processItem gC1 1).requests := by
  refine ⟨by decide, by decide, by decide, ?_⟩
  exact nonPrematureDeletion gC1 1 1 nodeOwnerGC true (by decide) (by decide) (by decide)

/- ===================== Claim C2 ===================== -/

/-- C2: a delete request with both `SynchronousGarbageCollection` and
`OrphanDependents` set is rejected with `InvalidOptionsError` at the request
boundary, the ObjectGraph is left untouched, and the error class is not
retryable. -/
theorem invalidOptionsRejected (g : ObjectGraph) (id : ObjectID) (opts : DeleteOptions)
    (h1 : opts.SynchronousGarbageCollection = true) (h2 : opts.OrphanDependents = true) :
    (deleteRequest g id opts).1 = some GCError.invalidOptionsError
    ∧ (deleteRequest g id opts).2 = g
    ∧ gcErrorRetryable GCError.invalidOptionsError = false := by
  refine ⟨?_, ?_, rfl⟩ <;> simp [deleteRequest, h1, h2]

/-- Witness for C2 on the concrete graph `gC1`. -/
theorem invalidOptionsRejected_witness :
    (DeleteOptions.mk true true).SynchronousGarbageCollection = true
    ∧ (deleteRequest gC1 1 (DeleteOptions.mk true true)).1 = some GCError.invalidOptionsError
    ∧ (deleteRequest gC1 1 (DeleteOptions.mk true true)).2 = gC1 := by
  have h := invalidOptionsRejected gC1 1 (DeleteOptions.mk true true) rfl rfl
  exact ⟨rfl, h.1, h.2.1⟩

/- ===================== Claim C4 ===================== -/

/-- C4: the CycleBreaker check removes the collecting-garbage finalizer from
`id` exactly when `id` is `gcInProgress` and every one of its owners is
simultaneously `gcInProgress` — vacuously including a `gcInProgress` node
with zero owners — and in every other case it takes no action at all. -/
theorem cycleBreakerCharacterization (g : ObjectGraph) (id : ObjectID) :
    ((StoreRequest.patchRemoveFinalizer id ∈ cycleBreaker g id) ↔
      ∃ n, g.lookup id = some n ∧ n.gcInProgress = true ∧
        ∀ r ∈ n.owners, g.gcInProgressOf r.owner = true)
    ∧ (∀ n, g.lookup id = some n → n.gcInProgress = true → n.owners = [] →
        cycleBreaker g id = [StoreRequest.patchRemoveFinalizer id])
    ∧ ((¬ ∃ n, g.lookup id = some n ∧ n.gcInProgress = true ∧
          ∀ r ∈ n.owners, g.gcInProgressOf r.owner = true) →
        cycleBreaker g id = []) := by
  have hfires : cycleBreakerFires g id = true ↔
      ∃ n, g.lookup id = some n ∧ n.gcInProgress = true ∧
        ∀ r ∈ n.owners, g.gcInProgressOf r.owner = true := by
    constructor
    · intro h
      rcases hl : g.lookup id with _ | n
      · rw [cycleBreakerFires, hl] at h
        simp at h
      · rw [cycleBreakerFires, hl] at h
        rcases Bool.and_eq_true_iff.mp h with ⟨hgc, hall⟩
        exact ⟨n, rfl, hgc, fun r hr => by
          have := List.all_eq_true.mp hall r hr
          simpa using this⟩
    · rintro ⟨n, hl, hgc, hall⟩
      rw [cycleBreakerFires, hl]
      refine Bool.and_eq_true_iff.mpr ⟨hgc, List.all_eq_true.mpr ?_⟩
      intro r hr
      simpa using hall r hr
  refine ⟨?_, ?_, ?_⟩
  · rw [← hfires]
    constructor
    · intro hmem
      by_cases h : cycleBreakerFires g id
      · exact h
      · simp [cycleBreaker, h] at hmem
    · intro h
      simp [cycleBreaker, h]
  · intro n hl hgc howners
    have hf : cycleBreakerFires g id = true :=
      hfires.mpr ⟨n, hl, hgc, fun r hr => by rw [howners] at hr; cases hr⟩
    simp [cycleBreaker, hf]
  · intro h
    have hf : cycleBreakerFires g id = false := by
      by_contra hc
      exact h (hfires.mp (by simpa using hc))
    simp [cycleBreaker, hf]

/-- Witness for C4: on `gC1`, node 1 is gcInProgress with zero owners, so
the check fires vacuously; node 2 is not gcInProgress, so the check leaves
it alone. -/
theorem cycleBreakerCharacterization_witness :
    cycleBreaker gC1 1 = [StoreRequest.patchRemoveFinalizer 1]
    ∧ cycleBreaker gC1 2 = [] := by
  constructor
  · exact (cycleBreakerCharacterization gC1 1).2.1 nodeOwnerGC (by decide) (by decide) rfl
  · refine (cycleBreakerCharacterization gC1 2).2.2 ?_
    rintro ⟨n, hl, hgc, -⟩
    have hl2 : gC1.lookup 2 = some nodeBlockingDep := by decide
    rw [hl2] at hl
    have hn : n = nodeBlockingDep := (Option.some.injEq _ _).mp hl.symm
    rw [hn] at hgc
    exact absurd hgc (by decide)

/- ===================== Claim C7 ===================== -/

/-- C7: enqueueing an identity that is already pending (dirty, not being
processed, present once in the hand-out queue) is a no-op: the double
enqueue equals the single enqueue, and the pending entry stays unique, so it
is handed to a worker exactly once. -/
theorem enqueueDedup (q : DirtyQueue) (id : ObjectID)
    (h1 : id ∈ q.dirty) (h2 : id ∉ q.processing) (h3 : q.queue.count id = 1) :
    q.enqueue id = q
    ∧ (q.enqueue id).enqueue id = q.enqueue id
    ∧ ((q.enqueue id).enqueue id).queue.count id = 1 := by
  have hnoop : q.enqueue id = q := by
    by_cases hs : q.isShutDown
    · simp [DirtyQueue.enqueue, hs]
    · simp [DirtyQueue.enqueue, hs, h1]
  refine ⟨hnoop, ?_, ?_⟩
  · rw [hnoop, hnoop]
  · rw [hnoop, hnoop]
    exact h3

/-- Witness for C7 on a concrete pending queue. -/
theorem enqueueDedup_witness :
    (7 : ObjectID) ∈ (DirtyQueue.mk [7] [7] [] false).dirty
    ∧ (DirtyQueue.mk [7] [7] [] false).enqueue 7 = DirtyQueue.mk [7] [7] [] false
    ∧ ((DirtyQueue.mk [7] [7] [] false).enqueue 7).enqueue 7
        = (DirtyQueue.mk [7] [7] [] false).enqueue 7 := by
  have h := enqueueDedup (DirtyQueue.mk [7] [7] [] false) 7 (by decide) (by decide) (by decide)
  exact ⟨by decide, h.1, h.2.1⟩

/- ===================== Claim C3 ===================== -/

theorem ownerAbsent_iff (g : ObjectGraph) (o : ObjectID) :
    ownerAbsent g o = true ↔
      (g.lookup o = none ∨
        ∃ m, g.lookup o = some m ∧ m.deletionRequested = true ∧ m.hasOrphanFinalizer = false) := by
  rcases hl : g.lookup o with _ | m
  · simp [ownerAbsent, hl]
  · simp only [ownerAbsent, hl]
    constructor
    · intro h
      rcases Bool.and_eq_true_iff.mp h with ⟨hd, ho⟩
      exact Or.inr ⟨m, rfl, hd, by simpa using ho⟩
    · rintro (h | ⟨m2, hm2, hd, ho⟩)
      · cases h
      · have : m2 = m := (Option.some.injEq _ _).mp hm2.symm
        subst this
        exact Bool.and_eq_true_iff.mpr ⟨hd, by simp [ho]⟩

/-- C3: in the ordinary (not gcInProgress) path of the ItemProcessor — the
node is present, not gcInProgress, and past the generation gate — a delete
for the dequeued identity is issued exactly when every owner is absent
(absent meaning: not in the graph, or deletion-requested without the orphan
finalizer), and that delete carries the `SynchronousGarbageCollection`
option indicated by the owners' collecting-garbage finalizer state. -/
theorem ordinaryPathDelete (g : ObjectGraph) (id : ObjectID) (n : GraphNode)
    (h1 : g.lookup id = some n) (h2 : n.gcInProgress = false)
    (h3 : ¬ n.observedGeneration < n.generation) :
    ∀ opt : Bool,
      StoreRequest.delete id opt ∈ (processItem g id).requests ↔
        ((∀ r ∈ n.owners, g.lookup r.owner = none ∨
            ∃ m, g.lookup r.owner = some m ∧ m.deletionRequested = true ∧
              m.hasOrphanFinalizer = false)
         ∧ opt = n.owners.any (fun r => g.gcInProgressOf r.owner)) := by
  intro opt
  have hbody : processItem g id =
      (if n.owners.all (fun r => ownerAbsent g r.owner) then
        ⟨[.delete id (ownersIndicateSyncGC g n)], [], false⟩
      else
        let present := n.owners.filter (fun r => !ownerAbsent g r.owner)
        if (n.owners.any (fun r => ownerAbsent g r.owner)) &&
            present.all (fun r => g.gcInProgressOf r.owner) then
          ⟨[.patchRemoveOwnerRefs id (present.map OwnerRef.owner)], [], false⟩
        else ⟨[], [], false⟩) := by
    simp only [processItem, h1]
    rw [if_neg h3, if_neg (by simp [h2])]
  rw [hbody]
  by_cases hall : n.owners.all (fun r => ownerAbsent g r.owner)
  · rw [if_pos hall]
    have hallProp : ∀ r ∈ n.owners, g.lookup r.owner = none ∨
        ∃ m, g.lookup r.owner = some m ∧ m.deletionRequested = true ∧
          m.hasOrphanFinalizer = false := by
      intro r hr
      exact (ownerAbsent_iff g r.owner).mp (List.all_eq_true.mp hall r hr)
    constructor
    · intro hmem
      simp only [List.mem_singleton, StoreRequest.delete.injEq] at hmem
      exact ⟨hallProp, by rw [hmem.2]; rfl⟩
    · rintro ⟨-, hopt⟩
      simp only [List.mem_singleton, StoreRequest.delete.injEq]
      exact ⟨by trivial, by rw [hopt]; rfl⟩
  · rw [if_neg hall]
    have hnall : ¬ (∀ r ∈ n.owners, g.lookup r.owner = none ∨
        ∃ m, g.lookup r.owner = some m ∧ m.deletionRequested = true ∧
          m.hasOrphanFinalizer = false) := by
      intro hc
      exact hall (List.all_eq_true.mpr (fun r hr => (ownerAbsent_iff g r.owner).mpr (hc r hr)))
    by_cases hsome : (n.owners.any (fun r => ownerAbsent g r.owner)) &&
        (n.owners.filter (fun r => !ownerAbsent g r.owner)).all
          (fun r => g.gcInProgressOf r.owner)
    · rw [if_pos hsome]
      simp only [List.mem_singleton]
      constructor
      · intro h; cases h
      · rintro ⟨hc, -⟩; exact absurd hc hnall
    · rw [if_neg hsome]
      simp only [List.not_mem_nil, false_iff]
      rintro ⟨hc, -⟩
      exact hnall hc

/-- A node whose single owner (identity 9) is untracked, for the C3
witness. -/
def nodeOrphanedDep : GraphNode :=
  { owners := [⟨9, false⟩], deletionRequested := false, gcInProgress := false,
    hasOrphanFinalizer := false, virtual := false, generation := 0,
    observedGeneration := 0 }

/-- A one-node graph whose node 5 references the untracked owner 9. -/
def gC3 : ObjectGraph := ⟨[(5, nodeOrphanedDep)]⟩

/-- Witness for C3: on `gC3` every owner of node 5 is absent (identity 9 is
untracked), so a delete for 5 with the propagated option `false` is
issued. -/
theorem ordinaryPathDelete_witness :
    gC3.lookup 5 = some nodeOrphanedDep
    ∧ nodeOrphanedDep.gcInProgress = false
    ∧ (StoreRequest.delete 5 false ∈ (processItem gC3 5).requests ↔
        ((∀ r ∈ nodeOrphanedDep.owners, gC3.lookup r.owner = none ∨
            ∃ m, gC3.lookup r.owner = some m ∧ m.deletionRequested = true ∧
              m.hasOrphanFinalizer = false)
         ∧ false = nodeOrphanedDep.owners.any (fun r => gC3.gcInProgressOf r.owner))) := by
  refine ⟨by decide, by decide, ?_⟩
  exact ordinaryPathDelete gC3 5 nodeOrphanedDep (by decide) (by decide) (by decide) false

/- ===================== Claim C5 ===================== -/

/-- The per-node form of the §3 invariant. -/
def NodeInv (n : GraphNode) : Prop :=
  n.gcInProgress = true → n.deletionRequested = true

theorem invariant_mapNode (g : ObjectGraph) (id : ObjectID) (f : GraphNode → GraphNode)
    (hf : ∀ n, NodeInv n → NodeInv (f n)) (h : Invariant g) :
    Invariant (g.mapNode id f) := by
  intro p hp
  simp only [ObjectGraph.mapNode, List.mem_map] at hp
  rcases hp with ⟨q, hq, hmap⟩
  by_cases hid : q.1 = id
  · rw [if_pos hid] at hmap
    rw [← hmap]
    exact hf q.2 (h q hq)
  · rw [if_neg hid] at hmap
    rw [← hmap]
    exact h q hq

theorem invariant_append (g : ObjectGraph) (h : Invariant g) (id : ObjectID)
    (n : GraphNode) (hn : NodeInv n) :
    Invariant ⟨g.nodes ++ [(id, n)]⟩ := by
  intro p hp
  rcases List.mem_append.mp hp with hmem | hmem
  · exact h p hmem
  · rcases List.mem_singleton.mp hmem with rfl
    exact hn

theorem invariant_ensureVirtual (g : ObjectGraph) (o : ObjectID) (h : Invariant g) :
    Invariant (g.ensureVirtual o) := by
  unfold ObjectGraph.ensureVirtual
  by_cases hc : g.containsID o
  · rw [if_pos hc]; exact h
  · rw [if_neg hc]
    exact invariant_append g h o GraphNode.virtualNode (by intro hgc; cases hgc)

theorem invariant_foldEnsureVirtual (L : List OwnerRef) (g : ObjectGraph) (h : Invariant g) :
    Invariant (L.foldl (fun acc ref => acc.ensureVirtual ref.owner) g) := by
  induction L generalizing g with
  | nil => exact h
  | cons r L ih =>
    exact ih (g.ensureVirtual r.owner) (invariant_ensureVirtual g r.owner h)

theorem invariant_upsert (g : ObjectGraph) (id : ObjectID) (owners : List OwnerRef)
    (gen obsGen : Nat) (orphanFin : Bool) (h : Invariant g) :
    Invariant (g.upsert id owners gen obsGen orphanFin) := by
  unfold ObjectGraph.upsert
  apply invariant_foldEnsureVirtual
  by_cases hc : g.containsID id
  · rw [if_pos hc]
    exact invariant_mapNode g id _ (fun n hn => hn) h
  · rw [if_neg hc]
    exact invariant_append g h id _ (by intro hgc; cases hgc)

theorem invariant_markDeletionRequested (g : ObjectGraph) (id : ObjectID) (h : Invariant g) :
    Invariant (g.markDeletionRequested id) :=
  invariant_mapNode g id _ (fun n _ => by intro _; rfl) h

theorem invariant_markGCInProgress (g : ObjectGraph) (id : ObjectID) (b : Bool)
    (h : Invariant g) : Invariant (g.markGCInProgress id b) := by
  apply invariant_mapNode g id _ _ h
  intro n hn
  cases b with
  | true => intro _; rfl
  | false => intro hgc; cases hgc

theorem invariant_remove (g : ObjectGraph) (id : ObjectID) (h : Invariant g) :
    Invariant (g.remove id) := by
  unfold ObjectGraph.remove
  by_cases hd : (g.dependentsOf id).isEmpty
  · rw [if_pos hd]
    intro p hp
    exact h p (List.mem_of_mem_filter hp)
  · rw [if_neg hd]
    exact h

theorem invariant_processEvent (g : ObjectGraph) (e : Event) (h : Invariant g) :
    Invariant (processEvent g e).1 := by
  unfold processEvent
  rcases e with ⟨ty, s⟩
  cases ty with
  | deleted => exact invariant_remove g s.identity h
  | added =>
    by_cases hcond : s.hasGCFinalizer && s.hasDeletionTimestamp
    · simp only [hcond, if_true]
      exact invariant_markGCInProgress g s.identity true h
    · simp only [hcond, if_false]
      exact invariant_upsert g s.identity s.ownerRefs s.generation s.observedGeneration
        s.hasOrphanFinalizer h
  | modified =>
    by_cases hcond : s.hasGCFinalizer && s.hasDeletionTimestamp
    · simp only [hcond, if_true]
      exact invariant_markGCInProgress g s.identity true h
    · simp only [hcond, if_false]
      exact invariant_upsert g s.identity s.ownerRefs s.generation s.observedGeneration
        s.hasOrphanFinalizer h

/-- C5: the §3 invariant — `gcInProgress` implies `deletionRequested` for
every tracked node — is preserved by every ObjectGraph operation (`upsert`,
`markDeletionRequested`, `markGCInProgress`, `remove`) and by the ingestion
of every event. -/
theorem invariantPreserved (g : ObjectGraph) (h : Invariant g) :
    (∀ (id : ObjectID) (owners : List OwnerRef) (gen obsGen : Nat) (orphanFin : Bool),
      Invariant (g.upsert id owners gen obsGen orphanFin))
    ∧ (∀ id : ObjectID, Invariant (g.markDeletionRequested id))
    ∧ (∀ (id : ObjectID) (b : Bool), Invariant (g.markGCInProgress id b))
    ∧ (∀ id : ObjectID, Invariant (g.remove id))
    ∧ (∀ e : Event, Invariant (processEvent g e).1) :=
  ⟨fun id owners gen obsGen orphanFin => invariant_upsert g id owners gen obsGen orphanFin h,
   fun id => invariant_markDeletionRequested g id h,
   fun id b => invariant_markGCInProgress g id b h,
   fun id => invariant_remove g id h,
   fun e => invariant_processEvent g e h⟩

/-- Witness for C5 on the concrete graph `gC1` with a nontrivial event. -/
theorem invariantPreserved_witness :
    Invariant gC1
    ∧ Invariant (gC1.upsert 3 [⟨1, false⟩] 4 4 false)
    ∧ Invariant (gC1.markGCInProgress 2 true)
    ∧ Invariant (processEvent gC1 ⟨.modified, ⟨2, [⟨1, true⟩], true, false, true, 0, 0⟩⟩).1 := by
  have h := invariantPreserved gC1 (by decide)
  exact ⟨by decide, h.1 3 [⟨1, false⟩] 4 4 false, h.2.2.1 2 true,
    h.2.2.2.2 ⟨.modified, ⟨2, [⟨1, true⟩], true, false, true, 0, 0⟩⟩⟩

/- ===================== Lemmas for event-ingestion idempotence ===================== -/

theorem containsID_iff (g : ObjectGraph) (id : ObjectID) :
    g.containsID id = true ↔ ∃ p ∈ g.nodes, p.1 = id := by
  simp [ObjectGraph.containsID, List.any_eq_true]

theorem containsID_mapNode (g : ObjectGraph) (id x : ObjectID) (f : GraphNode → GraphNode) :
    (g.mapNode id f).containsID x = g.containsID x := by
  rcases g with ⟨l⟩
  induction l with
  | nil => rfl
  | cons p l ih =>
    simp only [ObjectGraph.mapNode, List.map_cons, ObjectGraph.containsID, List.any_cons]
    by_cases hp : p.1 = id
    · rw [if_pos hp]
      simp only [ObjectGraph.mapNode, ObjectGraph.containsID] at ih
      rw [ih]
    · rw [if_neg hp]
      simp only [ObjectGraph.mapNode, ObjectGraph.containsID] at ih
      rw [ih]

theorem containsID_append (l l2 : List (ObjectID × GraphNode)) (x : ObjectID) :
    ObjectGraph.containsID ⟨l ++ l2⟩ x =
      (ObjectGraph.containsID ⟨l⟩ x || ObjectGraph.containsID ⟨l2⟩ x) := by
  simp [ObjectGraph.containsID, List.any_append]

theorem containsID_ensureVirtual_self (g : ObjectGraph) (o : ObjectID) :
    (g.ensureVirtual o).containsID o = true := by
  unfold ObjectGraph.ensureVirtual
  by_cases hc : g.containsID o
  · rw [if_pos hc]; exact hc
  · rw [if_neg hc]
    rw [containsID_append]
    simp [ObjectGraph.containsID]

theorem containsID_ensureVirtual_mono (g : ObjectGraph) (o x : ObjectID)
    (h : g.containsID x = true) : (g.ensureVirtual o).containsID x = true := by
  unfold ObjectGraph.ensureVirtual
  by_cases hc : g.containsID o
  · rw [if_pos hc]; exact h
  · rw [if_neg hc]
    rw [containsID_append, h]
    rfl

theorem ensureVirtual_noop (g : ObjectGraph) (o : ObjectID) (h : g.containsID o = true) :
    g.ensureVirtual o = g := by
  unfold ObjectGraph.ensureVirtual
  rw [if_pos h]

theorem foldEV_containsID_mono (L : List OwnerRef) (g : ObjectGraph) (x : ObjectID)
    (h : g.containsID x = true) :
    (L.foldl (fun acc ref => acc.ensureVirtual ref.owner) g).containsID x = true := by
  induction L generalizing g with
  | nil => exact h
  | cons r L ih =>
    exact ih (g.ensureVirtual r.owner) (containsID_ensureVirtual_mono g r.owner x h)

theorem foldEV_containsID_of_mem (L : List OwnerRef) (g : ObjectGraph) (r : OwnerRef)
    (hr : r ∈ L) :
    (L.foldl (fun acc ref => acc.ensureVirtual ref.owner) g).containsID r.owner = true := by
  induction L generalizing g with
  | nil => cases hr
  | cons a L ih =>
    rcases List.mem_cons.mp hr with rfl | hmem
    · exact foldEV_containsID_mono L (g.ensureVirtual r.owner) r.owner
        (containsID_ensureVirtual_self g r.owner)
    · exact ih (g.ensureVirtual a.owner) hmem

theorem foldEV_noop (L : List OwnerRef) (g : ObjectGraph)
    (h : ∀ r ∈ L, g.containsID r.owner = true) :
    L.foldl (fun acc ref => acc.ensureVirtual ref.owner) g = g := by
  induction L with
  | nil => rfl
  | cons a L ih =>
    have ha : g.ensureVirtual a.owner = g := ensureVirtual_noop g a.owner (h a (by simp))
    simp only [List.foldl_cons, ha]
    exact ih (fun r hr => h r (by simp [hr]))

theorem foldEV_nodes_suffix (L : List OwnerRef) (g : ObjectGraph) :
    ∃ extra, (L.foldl (fun acc ref => acc.ensureVirtual ref.owner) g).nodes =
      g.nodes ++ extra := by
  induction L generalizing g with
  | nil => exact ⟨[], (List.append_nil _).symm⟩
  | cons a L ih =>
    simp only [List.foldl_cons]
    rcases ih (g.ensureVirtual a.owner) with ⟨extra, hx⟩
    by_cases hc : g.containsID a.owner
    · refine ⟨extra, ?_⟩
      rw [ensureVirtual_noop g a.owner hc] at hx ⊢
      exact hx
    · have hg : g.ensureVirtual a.owner = ⟨g.nodes ++ [(a.owner, GraphNode.virtualNode)]⟩ := by
        unfold ObjectGraph.ensureVirtual
        rw [if_neg hc]
      refine ⟨(a.owner, GraphNode.virtualNode) :: extra, ?_⟩
      rw [hx, hg]
      simp [List.append_assoc]

theorem foldEV_key_mem (L : List OwnerRef) (g : ObjectGraph) (id : ObjectID)
    (hg : g.containsID id = true) :
    ∀ p ∈ (L.foldl (fun acc ref => acc.ensureVirtual ref.owner) g).nodes,
      p.1 = id → p ∈ g.nodes := by
  induction L generalizing g with
  | nil => intro p hp _; exact hp
  | cons a L ih =>
    intro p hp hpid
    have hg1 : (g.ensureVirtual a.owner).containsID id = true :=
      containsID_ensureVirtual_mono g a.owner id hg
    have hp1 : p ∈ (g.ensureVirtual a.owner).nodes :=
      ih (g.ensureVirtual a.owner) hg1 p hp hpid
    unfold ObjectGraph.ensureVirtual at hp1
    by_cases hc : g.containsID a.owner
    · rw [if_pos hc] at hp1; exact hp1
    · rw [if_neg hc] at hp1
      simp only at hp1
      rcases List.mem_append.mp hp1 with hmem | hmem
      · exact hmem
      · rcases List.mem_singleton.mp hmem with rfl
        exfalso
        apply hc
        rw [← hpid] at hg
        exact hg

theorem mapNode_eq_self (g : ObjectGraph) (id : ObjectID) (f : GraphNode → GraphNode)
    (h : ∀ p ∈ g.nodes, p.1 = id → f p.2 = p.2) : g.mapNode id f = g := by
  rcases g with ⟨l⟩
  simp only [ObjectGraph.mapNode, ObjectGraph.mk.injEq]
  induction l with
  | nil => rfl
  | cons p l ih =>
    simp only [List.map_cons]
    have hl : ∀ q ∈ l, q.1 = id → f q.2 = q.2 := fun q hq => h q (by simp [hq])
    by_cases hp : p.1 = id
    · rw [if_pos hp]
      have : f p.2 = p.2 := h p (by simp) hp
      rw [this, ih hl]
    · rw [if_neg hp, ih hl]

theorem mapNode_idem (g : ObjectGraph) (id : ObjectID) (f : GraphNode → GraphNode)
    (hf : ∀ n, f (f n) = f n) : (g.mapNode id f).mapNode id f = g.mapNode id f := by
  apply mapNode_eq_self
  intro p hp hpid
  simp only [ObjectGraph.mapNode, List.mem_map] at hp
  rcases hp with ⟨q, hq, hmap⟩
  by_cases hqid : q.1 = id
  · rw [if_pos hqid] at hmap
    rw [← hmap]
    exact hf q.2
  · rw [if_neg hqid] at hmap
    rw [← hmap] at hpid
    exact absurd hpid hqid

theorem lookup_mapNode_self (g : ObjectGraph) (id : ObjectID) (f : GraphNode → GraphNode) :
    (g.mapNode id f).lookup id = (g.lookup id).map f := by
  rcases g with ⟨l⟩
  induction l with
  | nil => rfl
  | cons p l ih =>
    simp only [ObjectGraph.mapNode, ObjectGraph.lookup] at ih ⊢
    simp only [List.map_cons]
    by_cases hp : p.1 = id
    · rw [if_pos hp]
      simp [List.find?_cons, hp]
    · rw [if_neg hp]
      simp only [List.find?_cons]
      simpa [hp] using ih

theorem lookup_append_left (l l2 : List (ObjectID × GraphNode)) (id : ObjectID)
    (h : (ObjectGraph.lookup ⟨l⟩ id).isSome) :
    ObjectGraph.lookup ⟨l ++ l2⟩ id = ObjectGraph.lookup ⟨l⟩ id := by
  induction l with
  | nil => simp [ObjectGraph.lookup] at h
  | cons p l ih =>
    simp only [ObjectGraph.lookup, List.cons_append, List.find?_cons] at *
    by_cases hp : (decide (p.1 = id)) = true
    · rw [hp]
    · rw [Bool.not_eq_true] at hp
      rw [hp] at h ⊢
      exact ih h

theorem lookup_isSome_of_contains (g : ObjectGraph) (id : ObjectID)
    (h : g.containsID id = true) : (g.lookup id).isSome := by
  rcases g with ⟨l⟩
  induction l with
  | nil => simp [ObjectGraph.containsID] at h
  | cons p l ih =>
    simp only [ObjectGraph.containsID, List.any_cons, Bool.or_eq_true] at h
    simp only [ObjectGraph.lookup, List.find?_cons]
    by_cases hp : (decide (p.1 = id)) = true
    · rw [hp]; rfl
    · rw [Bool.not_eq_true] at hp
      rw [hp]
      rcases h with h | h
      · rw [hp] at h; cases h
      · exact ih h

theorem lookup_none_of_not_contains (g : ObjectGraph) (id : ObjectID)
    (h : g.containsID id = false) : g.lookup id = none := by
  have : ∀ p ∈ g.nodes, ¬ (decide (p.1 = id) = true) := by
    intro p hp hc
    have : g.containsID id = true := (containsID_iff g id).mpr ⟨p, hp, by simpa using hc⟩
    rw [this] at h
    cases h
  simp only [ObjectGraph.lookup]
  rw [List.find?_eq_none.mpr this]
  rfl
theorem foldEV_graph_append (L : List OwnerRef) (g : ObjectGraph) :
    ∃ extra, L.foldl (fun acc ref => acc.ensureVirtual ref.owner) g =
      ⟨g.nodes ++ extra⟩ := by
  rcases foldEV_nodes_suffix L g with ⟨extra, hx⟩
  exact ⟨extra, congrArg ObjectGraph.mk hx⟩

theorem lookup_foldEV (L : List OwnerRef) (g : ObjectGraph) (id : ObjectID)
    (h : (g.lookup id).isSome) :
    (L.foldl (fun acc ref => acc.ensureVirtual ref.owner) g).lookup id = g.lookup id := by
  rcases foldEV_graph_append L g with ⟨extra, hx⟩
  rw [hx]
  exact lookup_append_left g.nodes extra id h

theorem upsert_containsID_self (g : ObjectGraph) (id : ObjectID) (owners : List OwnerRef)
    (gen obsGen : Nat) (orphanFin : Bool) :
    (g.upsert id owners gen obsGen orphanFin).containsID id = true := by
  unfold ObjectGraph.upsert
  apply foldEV_containsID_mono
  by_cases hc : g.containsID id
  · rw [if_pos hc, containsID_mapNode]
    exact hc
  · rw [if_neg hc, containsID_append]
    simp [ObjectGraph.containsID]

theorem upsert_idem (g : ObjectGraph) (id : ObjectID) (owners : List OwnerRef)
    (gen obsGen : Nat) (orphanFin : Bool) :
    (g.upsert id owners gen obsGen orphanFin).upsert id owners gen obsGen orphanFin =
      g.upsert id owners gen obsGen orphanFin := by
  have hcontains := upsert_containsID_self g id owners gen obsGen orphanFin
  have hOwnersContain : ∀ r ∈ owners,
      (g.upsert id owners gen obsGen orphanFin).containsID r.owner = true := by
    intro r hr
    unfold ObjectGraph.upsert
    exact foldEV_containsID_of_mem owners _ r hr
  have hKeyFix : ∀ p ∈ (g.upsert id owners gen obsGen orphanFin).nodes, p.1 = id →
      upsertTouch owners gen obsGen orphanFin p.2 = p.2 := by
    intro p hp hpid
    unfold ObjectGraph.upsert at hp
    by_cases hc : g.containsID id
    · rw [if_pos hc] at hp
      have hg1 : (g.mapNode id (upsertTouch owners gen obsGen orphanFin)).containsID id
          = true := by
        rw [containsID_mapNode]
        exact hc
      have hp1 := foldEV_key_mem owners _ id hg1 p hp hpid
      simp only [ObjectGraph.mapNode, List.mem_map] at hp1
      rcases hp1 with ⟨q, hq, hmap⟩
      by_cases hqid : q.1 = id
      · rw [if_pos hqid] at hmap
        rw [← hmap]
        rfl
      · rw [if_neg hqid] at hmap
        rw [← hmap] at hpid
        exact absurd hpid hqid
    · rw [if_neg hc] at hp
      have hg1 : (ObjectGraph.mk (g.nodes ++
          [(id, upsertNewNode owners gen obsGen orphanFin)])).containsID id = true := by
        rw [containsID_append]
        simp [ObjectGraph.containsID]
      have hp1 := foldEV_key_mem owners _ id hg1 p hp hpid
      rcases List.mem_append.mp hp1 with hmem | hmem
      · exfalso
        exact hc ((containsID_iff g id).mpr ⟨p, hmem, hpid⟩)
      · rcases List.mem_singleton.mp hmem with rfl
        rfl
  conv =>
    lhs
    rw [ObjectGraph.upsert]
  rw [if_pos hcontains]
  rw [mapNode_eq_self _ id _ hKeyFix]
  exact foldEV_noop owners _ hOwnersContain

theorem lookup_upsert_self (g : ObjectGraph) (id : ObjectID) (owners : List OwnerRef)
    (gen obsGen : Nat) (orphanFin : Bool) :
    ∃ n, (g.upsert id owners gen obsGen orphanFin).lookup id = some n ∧
      n.owners = owners := by
  unfold ObjectGraph.upsert
  by_cases hc : g.containsID id
  · rw [if_pos hc]
    rcases hlu : g.lookup id with _ | n0
    · exfalso
      have := lookup_isSome_of_contains g id hc
      rw [hlu] at this
      cases this
    · have hl1 : (g.mapNode id (upsertTouch owners gen obsGen orphanFin)).lookup id =
          some (upsertTouch owners gen obsGen orphanFin n0) := by
        rw [lookup_mapNode_self, hlu]
        rfl
      rw [lookup_foldEV owners _ id (by rw [hl1]; rfl), hl1]
      exact ⟨upsertTouch owners gen obsGen orphanFin n0, rfl, rfl⟩
  · rw [if_neg hc]
    have hfind : g.nodes.find? (fun p => p.1 = id) = none := by
      have hnone := lookup_none_of_not_contains g id (by simpa using hc)
      simp only [ObjectGraph.lookup] at hnone
      rcases hfo : g.nodes.find? (fun p => p.1 = id) with _ | v
      · exact hfo
      · rw [hfo] at hnone
        cases hnone
    have hbase : (ObjectGraph.mk (g.nodes ++
        [(id, upsertNewNode owners gen obsGen orphanFin)])).lookup id =
        some (upsertNewNode owners gen obsGen orphanFin) := by
      simp only [ObjectGraph.lookup, List.find?_append, hfind]
      simp
    rw [lookup_foldEV owners _ id (by rw [hbase]; rfl), hbase]
    exact ⟨upsertNewNode owners gen obsGen orphanFin, rfl, rfl⟩

theorem ownersOf_upsert_self (g : ObjectGraph) (id : ObjectID) (owners : List OwnerRef)
    (gen obsGen : Nat) (orphanFin : Bool) :
    (g.upsert id owners gen obsGen orphanFin).ownersOf id = owners := by
  rcases lookup_upsert_self g id owners gen obsGen orphanFin with ⟨n, hl, ho⟩
  rw [ObjectGraph.ownersOf, hl]
  exact ho

theorem remove_noop_of_dependents (g : ObjectGraph) (id : ObjectID)
    (h : (g.dependentsOf id).isEmpty = false) : g.remove id = g := by
  unfold ObjectGraph.remove
  rw [h]
  rfl

theorem remove_eq_filter (g : ObjectGraph) (id : ObjectID)
    (h : (g.dependentsOf id).isEmpty = true) :
    g.remove id = ⟨g.nodes.filter (fun p => ¬ p.1 = id)⟩ := by
  unfold ObjectGraph.remove
  rw [if_pos h]

theorem remove_idem (g : ObjectGraph) (id : ObjectID) :
    (g.remove id).remove id = g.remove id := by
  by_cases hd : (g.dependentsOf id).isEmpty
  · have hg2 := remove_eq_filter g id hd
    have hdep : ∀ p ∈ g.nodes, ¬ ((fun q : ObjectID × GraphNode =>
        q.2.owners.any (fun r => r.owner = id)) p = true) := by
      have hnil : g.nodes.filter
          (fun q : ObjectID × GraphNode => q.2.owners.any (fun r => r.owner = id)) = [] := by
        have hmap : g.dependentsOf id = [] := by
          rcases hll : g.dependentsOf id with _ | ⟨a, l⟩
          · rfl
          · rw [hll] at hd
            cases hd
        unfold ObjectGraph.dependentsOf at hmap
        exact List.map_eq_nil_iff.mp hmap
      intro p hp hc
      have hpf : p ∈ g.nodes.filter
          (fun q : ObjectID × GraphNode => q.2.owners.any (fun r => r.owner = id)) :=
        List.mem_filter.mpr ⟨hp, hc⟩
      rw [hnil] at hpf
      cases hpf
    have hd2 : ((g.remove id).dependentsOf id).isEmpty = true := by
      rw [hg2]
      unfold ObjectGraph.dependentsOf
      have hfe : (ObjectGraph.mk (g.nodes.filter (fun p => ¬ p.1 = id))).nodes.filter
          (fun q : ObjectID × GraphNode => q.2.owners.any (fun r => r.owner = id)) = [] := by
        apply List.filter_eq_nil_iff.mpr
        intro p hp
        have hpmem : p ∈ g.nodes := List.mem_of_mem_filter hp
        have := hdep p hpmem
        simpa using this
      rw [hfe]
      rfl
    have hg3 := remove_eq_filter (g.remove id) id hd2
    rw [hg3, hg2]
    have hff : (g.nodes.filter (fun p => ¬ p.1 = id)).filter (fun p => ¬ p.1 = id) =
        g.nodes.filter (fun p => ¬ p.1 = id) := by
      apply List.filter_eq_self.mpr
      intro p hp
      exact (List.mem_filter.mp hp).2
    exact congrArg ObjectGraph.mk hff
  · have hng := remove_noop_of_dependents g id (by simpa using hd)
    rw [hng, hng]

theorem lookup_remove_self (g : ObjectGraph) (id : ObjectID)
    (h : (g.dependentsOf id).isEmpty = true) : (g.remove id).lookup id = none := by
  rw [remove_eq_filter g id h]
  simp only [ObjectGraph.lookup]
  rw [List.find?_eq_none.mpr]
  · rfl
  · intro p hp hc
    have hnid := (List.mem_filter.mp hp).2
    simp only [decide_eq_true_eq] at hc hnid
    exact hnid hc

/- ===================== DirtyQueue lemmas ===================== -/

theorem enqueue_isShutDown (q : DirtyQueue) (x : ObjectID) :
    (q.enqueue x).isShutDown = q.isShutDown := by
  unfold DirtyQueue.enqueue
  by_cases hs : q.isShutDown
  · rw [if_pos hs]
  · rw [if_neg hs]
    by_cases hd : x ∈ q.dirty
    · rw [if_pos hd]
    · rw [if_neg hd]

theorem enqueue_noop_of (q : DirtyQueue) (x : ObjectID)
    (h : x ∈ q.dirty ∨ q.isShutDown = true) : q.enqueue x = q := by
  unfold DirtyQueue.enqueue
  by_cases hs : q.isShutDown
  · rw [if_pos hs]
  · rw [if_neg hs]
    rcases h with h | h
    · rw [if_pos h]
    · exact absurd h hs

theorem enqueue_pending_self (q : DirtyQueue) (x : ObjectID) :
    x ∈ (q.enqueue x).dirty ∨ (q.enqueue x).isShutDown = true := by
  by_cases hs : q.isShutDown
  · right
    rw [enqueue_isShutDown]
    exact hs
  · by_cases hd : x ∈ q.dirty
    · left
      rw [enqueue_noop_of q x (Or.inl hd)]
      exact hd
    · left
      unfold DirtyQueue.enqueue
      rw [if_neg hs, if_neg hd]
      simp

theorem enqueue_pending_mono (q : DirtyQueue) (x y : ObjectID)
    (h : x ∈ q.dirty ∨ q.isShutDown = true) :
    x ∈ (q.enqueue y).dirty ∨ (q.enqueue y).isShutDown = true := by
  rcases h with h | h
  · left
    unfold DirtyQueue.enqueue
    by_cases hs : q.isShutDown
    · rw [if_pos hs]; exact h
    · rw [if_neg hs]
      by_cases hd : y ∈ q.dirty
      · rw [if_pos hd]; exact h
      · rw [if_neg hd]
        simp [h]
  · right
    rw [enqueue_isShutDown]
    exact h

theorem enqueueAll_pending_mono (L : List ObjectID) (q : DirtyQueue) (x : ObjectID)
    (h : x ∈ q.dirty ∨ q.isShutDown = true) :
    x ∈ (q.enqueueAll L).dirty ∨ (q.enqueueAll L).isShutDown = true := by
  induction L generalizing q with
  | nil => exact h
  | cons y L ih => exact ih (q.enqueue y) (enqueue_pending_mono q x y h)

theorem enqueueAll_idem (L : List ObjectID) (q : DirtyQueue) :
    (q.enqueueAll L).enqueueAll L = q.enqueueAll L := by
  induction L generalizing q with
  | nil => rfl
  | cons x L ih =>
    show ((q.enqueueAll (x :: L)).enqueue x).enqueueAll L = q.enqueueAll (x :: L)
    have hpend : x ∈ (q.enqueueAll (x :: L)).dirty ∨
        (q.enqueueAll (x :: L)).isShutDown = true := by
      show x ∈ ((q.enqueue x).enqueueAll L).dirty ∨ ((q.enqueue x).enqueueAll L).isShutDown = true
      exact enqueueAll_pending_mono L (q.enqueue x) x (enqueue_pending_self q x)
    rw [enqueue_noop_of _ x hpend]
    show ((q.enqueue x).enqueueAll L).enqueueAll L = (q.enqueue x).enqueueAll L
    exact ih (q.enqueue x)

/- ===================== Claim C6 ===================== -/

/-- C6: ingesting the same event twice in a row leaves exactly the state of
a single ingestion — the ObjectGraph and the deduplicating DirtyQueue are
both unchanged by the repeat.  (The EventIngestor issues no store calls at
all, so in particular the repeat causes no duplicate store calls.) -/
theorem ingestIdempotent (s : ObjectGraph × DirtyQueue) (e : Event) :
    ingest (ingest s e) e = ingest s e := by
  rcases s with ⟨g, q⟩
  rcases e with ⟨ty, snap⟩
  cases ty with
  | deleted =>
    by_cases hd : (g.dependentsOf snap.identity).isEmpty
    · have hlook : (g.remove snap.identity).lookup snap.identity = none :=
        lookup_remove_self g snap.identity hd
      simp [ingest, processEvent, hlook, remove_idem]
      rfl
    · have hng := remove_noop_of_dependents g snap.identity (by simpa using hd)
      simp [ingest, processEvent, hng, enqueueAll_idem]
  | added =>
    by_cases hcond : snap.hasGCFinalizer && snap.hasDeletionTimestamp
    · have hmark : ((g.markGCInProgress snap.identity true).markGCInProgress
          snap.identity true) = g.markGCInProgress snap.identity true := by
        unfold ObjectGraph.markGCInProgress
        exact mapNode_idem g snap.identity _ (fun n => rfl)
      simp [ingest, processEvent, hcond, hmark, enqueueAll_idem]
    · have hups := upsert_idem g snap.identity snap.ownerRefs snap.generation
        snap.observedGeneration snap.hasOrphanFinalizer
      have howners := ownersOf_upsert_self g snap.identity snap.ownerRefs snap.generation
        snap.observedGeneration snap.hasOrphanFinalizer
      have hcondf : (snap.hasGCFinalizer && snap.hasDeletionTimestamp) = false := by
        simpa using hcond
      simp [ingest, processEvent, hcondf, hups, howners]
      rfl
  | modified =>
    by_cases hcond : snap.hasGCFinalizer && snap.hasDeletionTimestamp
    · have hmark : ((g.markGCInProgress snap.identity true).markGCInProgress
          snap.identity true) = g.markGCInProgress snap.identity true := by
        unfold ObjectGraph.markGCInProgress
        exact mapNode_idem g snap.identity _ (fun n => rfl)
      simp [ingest, processEvent, hcond, hmark, enqueueAll_idem]
    · have hups := upsert_idem g snap.identity snap.ownerRefs snap.generation
        snap.observedGeneration snap.hasOrphanFinalizer
      have howners := ownersOf_upsert_self g snap.identity snap.ownerRefs snap.generation
        snap.observedGeneration snap.hasOrphanFinalizer
      have hcondf : (snap.hasGCFinalizer && snap.hasDeletionTimestamp) = false := by
        simpa using hcond
      simp [ingest, processEvent, hcondf, hups, howners]
      rfl
